import Mathlib

/-!
Shallow embedding of the memstrap string-scanning core
(`src/memstrap/src/extractor.rs` and the chunk planning / dedup steps of
`src/memstrap/src/main.rs`), together with theorems settling the frozen
claims about its specification.

Bytes are modelled as `Nat` (values below 256 in every real buffer), byte
buffers as `List Nat`, and the `u64`/`usize` arithmetic as `Nat` (no
wrap-around is reachable for real buffer sizes).  The GBK decoder of the
external `encoding_rs` crate and the regex compiler of the external `regex`
crate are passed as explicit parameters, since they are not code of this
repository.
-/

namespace Memstrap

/-- The `Encoding` enum of `extractor.rs`. -/
inductive Encoding where
  | Ascii
  | Utf8
  | Utf16Le
  | Utf16Be
  | Gbk
deriving DecidableEq, Repr

/-- The `EncodingType` enum of `config.rs` (the CLI-level encoding names). -/
inductive EncodingType where
  | Ascii
  | Utf8
  | Utf16Le
  | Utf16Be
  | Gbk
deriving DecidableEq, Repr

/-- The `From<EncodingType> for Encoding` conversion of `extractor.rs`. -/
def Encoding.ofType : EncodingType → Encoding
  | .Ascii => .Ascii
  | .Utf8 => .Utf8
  | .Utf16Le => .Utf16Le
  | .Utf16Be => .Utf16Be
  | .Gbk => .Gbk

/-- The `FoundString` struct of `extractor.rs`. -/
structure FoundString where
  offset : Nat
  content : String
  encoding : Encoding
  byte_length : Nat
  context_before : Option (List Nat)
  context_after : Option (List Nat)
deriving DecidableEq, Repr

/-- The `ExtractionConfig` struct of `extractor.rs`.  The `HashSet<Encoding>`
is modelled as a list (only membership is ever consulted) and the compiled
`Regex` as its matcher predicate `String → Bool`. -/
structure ExtractionConfig where
  min_len : Nat
  encodings : List Encoding
  search_pattern : Option String
  regex_pattern : Option (String → Bool)
  context_bytes : Option Nat

/-- Byte access `data[i]`; the scanners only index below `data.length`,
mirroring the bounds the Rust loops enforce. -/
def byteAt (data : List Nat) (i : Nat) : Nat :=
  data.getD i 0

/-- The `is_printable_ascii` check of `extractor.rs`. -/
def isPrintableAscii (b : Nat) : Bool :=
  decide (0x20 ≤ b) && decide (b ≤ 0x7E)

/-- Substring containment over character lists, modelling `str::contains` of
the Rust standard library for a plain-text pattern. -/
def containsSub (hay needle : List Char) : Bool :=
  match hay with
  | [] => needle.isEmpty
  | _ :: t => needle.isPrefixOf hay || containsSub t needle

/-- The `matches_search_criteria` check of `extractor.rs`: a configured regex
takes priority, else substring containment, else accept. -/
def matchesSearchCriteria (cfg : ExtractionConfig) (content : String) : Bool :=
  match cfg.regex_pattern with
  | some r => r content
  | none =>
    match cfg.search_pattern with
    | some p => containsSub content.toList p.toList
    | none => true

/-- The slice `data[a..b]` of a byte buffer. -/
def sliceList (data : List Nat) (a b : Nat) : List Nat :=
  (data.drop a).take (b - a)

/-- The `extract_context` helper of `extractor.rs`: up to `context_bytes` raw
bytes on each side of the run, each side present only when nonempty. -/
def extractContext (cfg : ExtractionConfig) (data : List Nat) (start stop : Nat) :
    Option (List Nat) × Option (List Nat) :=
  match cfg.context_bytes with
  | some c =>
    let beforeStart := start - c
    let afterEnd := min (stop + c) data.length
    let ctxB := if beforeStart < start then some (sliceList data beforeStart start) else none
    let ctxA := if stop < afterEnd then some (sliceList data stop afterEnd) else none
    (ctxB, ctxA)
  | none => (none, none)

/-- Modelled from `std::str::from_utf8` of the Rust standard library (not code
of this repository): strict UTF-8 validation and decoding, `none` on any
ill-formed input (overlong forms, surrogates and out-of-range values
rejected). -/
def utf8DecodeList : List Nat → Option (List Char)
  | [] => some []
  | b :: rest =>
    if b ≤ 0x7F then
      (utf8DecodeList rest).map (Char.ofNat b :: ·)
    else if 0xC2 ≤ b ∧ b ≤ 0xDF then
      match rest with
      | c1 :: r =>
        if 0x80 ≤ c1 ∧ c1 ≤ 0xBF then
          (utf8DecodeList r).map (Char.ofNat ((b - 0xC0) * 0x40 + (c1 - 0x80)) :: ·)
        else none
      | [] => none
    else if 0xE0 ≤ b ∧ b ≤ 0xEF then
      match rest with
      | c1 :: c2 :: r =>
        if (if b = 0xE0 then 0xA0 ≤ c1 ∧ c1 ≤ 0xBF
            else if b = 0xED then 0x80 ≤ c1 ∧ c1 ≤ 0x9F
            else 0x80 ≤ c1 ∧ c1 ≤ 0xBF) ∧ (0x80 ≤ c2 ∧ c2 ≤ 0xBF) then
          (utf8DecodeList r).map
            (Char.ofNat ((b - 0xE0) * 0x1000 + (c1 - 0x80) * 0x40 + (c2 - 0x80)) :: ·)
        else none
      | _ => none
    else if 0xF0 ≤ b ∧ b ≤ 0xF4 then
      match rest with
      | c1 :: c2 :: c3 :: r =>
        if (if b = 0xF0 then 0x90 ≤ c1 ∧ c1 ≤ 0xBF
            else if b = 0xF4 then 0x80 ≤ c1 ∧ c1 ≤ 0x8F
            else 0x80 ≤ c1 ∧ c1 ≤ 0xBF) ∧ (0x80 ≤ c2 ∧ c2 ≤ 0xBF) ∧
           (0x80 ≤ c3 ∧ c3 ≤ 0xBF) then
          (utf8DecodeList r).map
            (Char.ofNat ((b - 0xF0) * 0x40000 + (c1 - 0x80) * 0x1000 +
              (c2 - 0x80) * 0x40 + (c3 - 0x80)) :: ·)
        else none
      | _ => none
    else none

/-- UTF-8 decoding to a `String` (see `utf8DecodeList`). -/
def utf8Decode (bs : List Nat) : Option String :=
  (utf8DecodeList bs).map String.mk

/-- Modelled from `String::from_utf16` of the Rust standard library (not code
of this repository): decodes 16-bit code units, pairing surrogates, `none` on
an unpaired surrogate. -/
def utf16DecodeList : List Nat → Option (List Char)
  | [] => some []
  | u :: rest =>
    if u < 0xD800 ∨ 0xDFFF < u then
      (utf16DecodeList rest).map (Char.ofNat u :: ·)
    else if u ≤ 0xDBFF then
      match rest with
      | v :: r =>
        if 0xDC00 ≤ v ∧ v ≤ 0xDFFF then
          (utf16DecodeList r).map
            (Char.ofNat (0x10000 + (u - 0xD800) * 0x400 + (v - 0xDC00)) :: ·)
        else none
      | [] => none
    else none

/-- UTF-16 decoding to a `String` (see `utf16DecodeList`). -/
def utf16Decode (us : List Nat) : Option String :=
  (utf16DecodeList us).map String.mk

/-- Inner run loop of `extract_ascii_utf8` (extractor.rs lines 134-166):
starting at index `i`, returns the index just past the run and the
`has_non_ascii` flag.  The fuel argument only drives termination; every
caller passes at least `data.length - i + 1`, which the loop can never
exhaust since each iteration advances `i`. -/
def asciiRun (data : List Nat) : Nat → Nat → Bool → Nat × Bool
  | 0, i, nonAscii => (i, nonAscii)
  | fuel + 1, i, nonAscii =>
    if i < data.length then
      let b := byteAt data i
      if b = 0 ∨ (b < 0x20 ∧ b ≠ 0x09) then (i, nonAscii)
      else if isPrintableAscii b ∨ b = 0x09 then asciiRun data fuel (i + 1) nonAscii
      else if b &&& 0x80 ≠ 0 then
        if b &&& 0xE0 = 0xC0 ∧ i + 1 < data.length then asciiRun data fuel (i + 2) true
        else if b &&& 0xF0 = 0xE0 ∧ i + 2 < data.length then asciiRun data fuel (i + 3) true
        else if b &&& 0xF8 = 0xF0 ∧ i + 3 < data.length then asciiRun data fuel (i + 4) true
        else (i, true)
      else (i, nonAscii)
    else (i, nonAscii)

/-- The ASCII fallback projection of `extract_ascii_utf8` (extractor.rs lines
178-185): graphic/space/tab bytes kept, every other byte replaced by `?`. -/
def asciiProjection (bs : List Nat) : String :=
  String.mk (bs.map fun b =>
    if (0x21 ≤ b ∧ b ≤ 0x7E) ∨ b = 0x20 ∨ b = 0x09 then Char.ofNat b else '?')

/-- Content/encoding determination of `extract_ascii_utf8` (extractor.rs
lines 172-195): UTF-8 validation when non-ASCII bytes were seen (falling back
to the ASCII projection), else the direct ASCII reading. -/
def asciiContentEnc (span : List Nat) (nonAscii : Bool) : String × Encoding :=
  if nonAscii then
    match utf8Decode span with
    | some s => (s, Encoding.Utf8)
    | none => (asciiProjection span, Encoding.Ascii)
  else (String.mk (span.map Char.ofNat), Encoding.Ascii)

/-- Candidate emission step of `extract_ascii_utf8` (extractor.rs lines
168-207): length gate, content determination, filter, context capture. -/
def asciiEmit (cfg : ExtractionConfig) (data : List Nat) (base : Nat)
    (start stop : Nat) (nonAscii : Bool) : Option FoundString :=
  if cfg.min_len ≤ stop - start then
    let ce := asciiContentEnc (sliceList data start stop) nonAscii
    if matchesSearchCriteria cfg ce.1 then
      let ctx := extractContext cfg data start stop
      some ⟨base + start, ce.1, ce.2, stop - start, ctx.1, ctx.2⟩
    else none
  else none

/-- Outer scan loop of `extract_ascii_utf8` (extractor.rs lines 128-212). -/
def asciiScan (cfg : ExtractionConfig) (data : List Nat) (base : Nat) :
    Nat → Nat → List FoundString
  | 0, _ => []
  | fuel + 1, i =>
    if i < data.length then
      if isPrintableAscii (byteAt data i) then
        let r := asciiRun data (data.length + 1) i false
        let rest := asciiScan cfg data base fuel r.1
        match asciiEmit cfg data base i r.1 r.2 with
        | some m => m :: rest
        | none => rest
      else asciiScan cfg data base fuel (i + 1)
    else []

/-- The `extract_ascii_utf8` scanner of `extractor.rs`. -/
def extractAsciiUtf8 (cfg : ExtractionConfig) (data : List Nat) (base : Nat) :
    List FoundString :=
  asciiScan cfg data base (data.length + 1) 0

/-- Inner code-unit collection loop of `extract_utf16le` (extractor.rs lines
229-253): returns the collected 16-bit code units and the index just past the
run.  Fuel as in `asciiRun`. -/
def utf16CollectLe (data : List Nat) : Nat → Nat → List Nat × Nat
  | 0, i => ([], i)
  | fuel + 1, i =>
    if i + 1 < data.length then
      let low := byteAt data i
      let high := byteAt data (i + 1)
      if low = 0 ∧ high = 0 then ([], i)
      else if high = 0 ∧ isPrintableAscii low then
        let r := utf16CollectLe data fuel (i + 2)
        (low :: r.1, r.2)
      else
        let cu := low + high * 256
        if high ≠ 0 then ([cu], i + 2)
        else
          let r := utf16CollectLe data fuel (i + 2)
          (cu :: r.1, r.2)
    else ([], i)

/-- Inner code-unit collection loop of `extract_utf16be` (extractor.rs lines
291-315): byte-order mirror of `utf16CollectLe`. -/
def utf16CollectBe (data : List Nat) : Nat → Nat → List Nat × Nat
  | 0, i => ([], i)
  | fuel + 1, i =>
    if i + 1 < data.length then
      let high := byteAt data i
      let low := byteAt data (i + 1)
      if high = 0 ∧ low = 0 then ([], i)
      else if high = 0 ∧ isPrintableAscii low then
        let r := utf16CollectBe data fuel (i + 2)
        (low :: r.1, r.2)
      else
        let cu := high * 256 + low
        if high ≠ 0 then ([cu], i + 2)
        else
          let r := utf16CollectBe data fuel (i + 2)
          (cu :: r.1, r.2)
    else ([], i)

/-- Candidate emission step shared by `extract_utf16le` and `extract_utf16be`
(extractor.rs lines 255-270 and 317-332): code-unit length gate, UTF-16
decoding (silent drop on failure), filter, context capture. -/
def utf16Emit (cfg : ExtractionConfig) (data : List Nat) (base : Nat)
    (enc : Encoding) (start stop : Nat) (units : List Nat) : Option FoundString :=
  if cfg.min_len ≤ units.length then
    match utf16Decode units with
    | some content =>
      if matchesSearchCriteria cfg content then
        let ctx := extractContext cfg data start stop
        some ⟨base + start, content, enc, stop - start, ctx.1, ctx.2⟩
      else none
    | none => none
  else none

/-- Outer scan loop of `extract_utf16le` (extractor.rs lines 218-277). -/
def utf16LeScan (cfg : ExtractionConfig) (data : List Nat) (base : Nat) :
    Nat → Nat → List FoundString
  | 0, _ => []
  | fuel + 1, i =>
    if i + 1 < data.length then
      if isPrintableAscii (byteAt data i) ∧ byteAt data (i + 1) = 0 then
        let r := utf16CollectLe data (data.length + 1) i
        let rest := utf16LeScan cfg data base fuel r.2
        match utf16Emit cfg data base .Utf16Le i r.2 r.1 with
        | some m => m :: rest
        | none => rest
      else utf16LeScan cfg data base fuel (i + 1)
    else []

/-- The `extract_utf16le` scanner of `extractor.rs`. -/
def extractUtf16Le (cfg : ExtractionConfig) (data : List Nat) (base : Nat) :
    List FoundString :=
  utf16LeScan cfg data base (data.length + 1) 0

/-- Outer scan loop of `extract_utf16be` (extractor.rs lines 280-339). -/
def utf16BeScan (cfg : ExtractionConfig) (data : List Nat) (base : Nat) :
    Nat → Nat → List FoundString
  | 0, _ => []
  | fuel + 1, i =>
    if i + 1 < data.length then
      if byteAt data i = 0 ∧ isPrintableAscii (byteAt data (i + 1)) then
        let r := utf16CollectBe data (data.length + 1) i
        let rest := utf16BeScan cfg data base fuel r.2
        match utf16Emit cfg data base .Utf16Be i r.2 r.1 with
        | some m => m :: rest
        | none => rest
      else utf16BeScan cfg data base fuel (i + 1)
    else []

/-- The `extract_utf16be` scanner of `extractor.rs`. -/
def extractUtf16Be (cfg : ExtractionConfig) (data : List Nat) (base : Nat) :
    List FoundString :=
  utf16BeScan cfg data base (data.length + 1) 0

/-- Valid GBK trail byte (extractor.rs lines 378-379). -/
def isGbkTrail (b : Nat) : Bool :=
  (decide (0x40 ≤ b) && decide (b ≤ 0x7E)) || (decide (0x80 ≤ b) && decide (b ≤ 0xFE))

/-- Inner byte-collection loop of `extract_gbk` (extractor.rs lines 352-396):
accumulates GBK bytes with a consecutive-invalid counter (`ci`) and the
1024-byte accumulation cap; returns the accumulated bytes and the index just
past the run. -/
def gbkCollect (data : List Nat) : Nat → Nat → List Nat → Nat → List Nat × Nat
  | 0, i, acc, _ => (acc, i)
  | fuel + 1, i, acc, ci =>
    if i < data.length ∧ acc.length < 1024 then
      let b := byteAt data i
      if b = 0 ∨ (b < 0x20 ∧ b ≠ 0x09) then (acc, i)
      else if 0x20 ≤ b ∧ b ≤ 0x7E then gbkCollect data fuel (i + 1) (acc ++ [b]) 0
      else if 0x81 ≤ b ∧ b ≤ 0xFE ∧ i + 1 < data.length ∧ isGbkTrail (byteAt data (i + 1)) then
        gbkCollect data fuel (i + 2) (acc ++ [b, byteAt data (i + 1)]) 0
      else if 3 ≤ ci + 1 then (acc, i)
      else gbkCollect data fuel (i + 1) acc (ci + 1)
    else (acc, i)

/-- Candidate emission step of `extract_gbk` (extractor.rs lines 398-417):
byte-count gate, lossy decode via the external `encoding_rs` GBK decoder
(passed as `decode`), trimmed-nonempty and decoded-length gates, filter,
context capture. -/
def gbkEmit (decode : List Nat → String) (cfg : ExtractionConfig) (data : List Nat)
    (base : Nat) (start stop : Nat) (acc : List Nat) : Option FoundString :=
  if cfg.min_len ≤ acc.length then
    let decoded := decode acc
    if ¬ decoded.trim.isEmpty ∧ cfg.min_len / 2 ≤ decoded.length then
      if matchesSearchCriteria cfg decoded then
        let ctx := extractContext cfg data start stop
        some ⟨base + start, decoded, .Gbk, stop - start, ctx.1, ctx.2⟩
      else none
    else none
  else none

/-- Outer scan loop of `extract_gbk` (extractor.rs lines 347-421). -/
def gbkScan (decode : List Nat → String) (cfg : ExtractionConfig) (data : List Nat)
    (base : Nat) : Nat → Nat → List FoundString
  | 0, _ => []
  | fuel + 1, i =>
    if i < data.length then
      if 0x81 ≤ byteAt data i ∧ byteAt data i ≤ 0xFE then
        let r := gbkCollect data (data.length + 1) i [] 0
        let rest := gbkScan decode cfg data base fuel r.2
        match gbkEmit decode cfg data base i r.2 r.1 with
        | some m => m :: rest
        | none => rest
      else gbkScan decode cfg data base fuel (i + 1)
    else []

/-- The `extract_gbk` scanner of `extractor.rs`. -/
def extractGbk (decode : List Nat → String) (cfg : ExtractionConfig) (data : List Nat)
    (base : Nat) : List FoundString :=
  gbkScan decode cfg data base (data.length + 1) 0

/-- The `extract_strings` method of `extractor.rs` (lines 95-120): runs each
enabled scanner once and concatenates the results.  The combined ASCII/UTF-8
scanner runs when either `Ascii` or `Utf8` is requested. -/
def extractStrings (decode : List Nat → String) (cfg : ExtractionConfig)
    (data : List Nat) (base : Nat) : List FoundString :=
  (if cfg.encodings.contains .Ascii || cfg.encodings.contains .Utf8 then
    extractAsciiUtf8 cfg data base
  else []) ++
  (if cfg.encodings.contains .Utf16Le then extractUtf16Le cfg data base else []) ++
  (if cfg.encodings.contains .Utf16Be then extractUtf16Be cfg data base else []) ++
  (if cfg.encodings.contains .Gbk then extractGbk decode cfg data base else [])

/-- The `StringExtractor::new` constructor of `extractor.rs` (lines 66-92).
The regex compiler of the external `regex` crate is passed as `compile`; the
`?` on `Regex::new` propagates its failure.  Note the `search_pattern` field
retains the pattern string even in regex mode. -/
def stringExtractorNew (compile : String → Except Unit (String → Bool))
    (min_len : Nat) (encodings : List EncodingType) (search : Option String)
    (use_regex : Bool) (context_bytes : Option Nat) : Except Unit ExtractionConfig :=
  let encs := encodings.map Encoding.ofType
  let rp : Except Unit (Option (String → Bool)) :=
    if use_regex ∧ search.isSome then
      match search with
      | some p => (compile p).map some
      | none => .ok none
    else .ok none
  rp.map fun regex_pattern =>
    { min_len := min_len
      encodings := encs
      search_pattern := search
      regex_pattern := regex_pattern
      context_bytes := context_bytes }

/-- The 16 MiB minimum chunk size of `main.rs` (line 62). -/
def minChunkSize : Nat := 16 * 1024 * 1024

/-- The 4096-byte chunk overlap of `main.rs` (line 70). -/
def overlapSize : Nat := 4096

/-- The thread-count computation of `main.rs` (lines 63-67): one chunk below
the minimum chunk size, otherwise at most one chunk per 16 MiB. -/
def numThreadsFor (len threads : Nat) : Nat :=
  if len < minChunkSize then 1 else min threads (len / minChunkSize)

/-- The chunk-size computation of `main.rs` (line 69). -/
def chunkSizeFor (len numThreads : Nat) : Nat :=
  if numThreads = 1 then len else len / numThreads

/-- The chunk plan of `main.rs` (lines 96-106): `(start, end, base_offset)`
per chunk, every chunk except the last widened on the right by the overlap
(clipped to the input length), `base_offset` equal to the unwidened start. -/
def planChunks (len threads : Nat) : List (Nat × Nat × Nat) :=
  let n := numThreadsFor len threads
  let chunkSize := chunkSizeFor len n
  (List.range n).map fun i =>
    let start := i * chunkSize
    let stop := if i = n - 1 then len else min ((i + 1) * chunkSize + overlapSize) len
    (start, stop, start)

/-- The retained-element comparison pass of `Vec::dedup_by_key` keyed on
`offset` (main.rs line 140): an element is removed exactly when its offset
equals the offset of the immediately preceding kept element. -/
def dedupFrom (prev : FoundString) : List FoundString → List FoundString
  | [] => []
  | b :: t => if b.offset = prev.offset then dedupFrom prev t else b :: dedupFrom b t

/-- `Vec::dedup_by_key` keyed on `offset` (main.rs line 140). -/
def dedupByOffset : List FoundString → List FoundString
  | [] => []
  | a :: t => a :: dedupFrom a t

/-- The stable sort by `offset` of `main.rs` (line 138). -/
def sortByOffset (l : List FoundString) : List FoundString :=
  l.mergeSort fun a b => decide (a.offset ≤ b.offset)

/-- The dedup/merge step of `main.rs` (lines 136-141): stable sort by offset,
then collapse consecutive equal-offset entries keeping the first. -/
def mergeDedup (l : List FoundString) : List FoundString :=
  dedupByOffset (sortByOffset l)

/-! Concrete fixtures used by the claim theorems. -/

/-- A stand-in GBK decoder for configurations that never reach the GBK
scanner. -/
def stubDecode : List Nat → String := fun _ => ""

/-- A stand-in regex compiler whose compiled pattern accepts everything. -/
def compileStub : String → Except Unit (String → Bool) := fun _ => .ok fun _ => true

/-- The Scenario A configuration: `min_len = 4`, encodings {ASCII, UTF-8},
no filter, no context capture. -/
def cfgA : ExtractionConfig := ⟨4, [.Ascii, .Utf8], none, none, none⟩

/-- The 28 bytes of `"Hello World! This is a test."`. -/
def helloBuf : List Nat :=
  [72, 101, 108, 108, 111, 32, 87, 111, 114, 108, 100, 33, 32, 84, 104, 105,
   115, 32, 105, 115, 32, 97, 32, 116, 101, 115, 116, 46]

/-- A UTF-16LE buffer: code units `0x41`, `0x0001`, `0x0001`, `0x42`, then the
double-NUL terminator. -/
def u16Buf : List Nat := [65, 0, 1, 0, 1, 0, 66, 0, 0, 0]

/-- The UTF-8 bytes of `"héllo"`. -/
def accentBuf : List Nat := [0x68, 0xC3, 0xA9, 0x6C, 0x6C, 0x6F]

/-- The ASCII bytes of `"hello"`. -/
def plainBuf : List Nat := [104, 101, 108, 108, 111]

/-- A tab byte followed by the ASCII bytes of `"abcd"`. -/
def tabBuf : List Nat := [9, 97, 98, 99, 100]

/-- A GBK run: a valid lead/trail pair, three invalid bytes (`0x7F`), then
another valid lead/trail pair. -/
def gbkBuf : List Nat := [0xC4, 0xE3, 0x7F, 0x7F, 0x7F, 0xC4, 0xE3]

/-! Formalisations of claim sentences that the code falsifies, written from
the claim's own words so their negations can be proved. -/

/-- Claim C2 as stated: in the UTF-16LE scanner, any code unit other than the
double-NUL terminator and the printable-ASCII fast path is accepted exactly
once and the run terminates immediately after it. -/
def utf16RunStopClaim : Prop :=
  ∀ (data : List Nat) (fuel i : Nat),
    i + 1 < data.length →
    ¬(byteAt data i = 0 ∧ byteAt data (i + 1) = 0) →
    ¬(byteAt data (i + 1) = 0 ∧ isPrintableAscii (byteAt data i)) →
    utf16CollectLe data (fuel + 1) i =
      ([byteAt data i + byteAt data (i + 1) * 256], i + 2)

/-- Claim C3 as stated: in the GBK scanner, an invalid byte is skipped and the
run continues whenever at most 3 consecutive invalid bytes have been seen. -/
def gbkSkipClaim : Prop :=
  ∀ (data : List Nat) (fuel i ci : Nat) (acc : List Nat),
    i < data.length → acc.length < 1024 →
    ¬(byteAt data i = 0 ∨ (byteAt data i < 0x20 ∧ byteAt data i ≠ 0x09)) →
    ¬(0x20 ≤ byteAt data i ∧ byteAt data i ≤ 0x7E) →
    ¬(0x81 ≤ byteAt data i ∧ byteAt data i ≤ 0xFE ∧ i + 1 < data.length ∧
        isGbkTrail (byteAt data (i + 1))) →
    ci + 1 ≤ 3 →
    gbkCollect data (fuel + 1) i acc ci = gbkCollect data fuel (i + 1) acc (ci + 1)

/-- Claim C8 as stated: a successfully constructed configuration never has
both filter fields populated. -/
def filterFieldsExclusiveClaim : Prop :=
  ∀ (compile : String → Except Unit (String → Bool)) (min_len : Nat)
    (encodings : List EncodingType) (search : Option String) (use_regex : Bool)
    (ctx : Option Nat) (cfg : ExtractionConfig),
    stringExtractorNew compile min_len encodings search use_regex ctx = .ok cfg →
    ¬(cfg.search_pattern.isSome = true ∧ cfg.regex_pattern.isSome = true)

end Memstrap

namespace Memstrap

/-- C1, counterexample: on Scenario A's 28-byte buffer the single emitted
match has `byte_length = 28`, not 29 as the claim states. -/
theorem c1_byte_length_counterexample :
    (extractStrings stubDecode cfgA helloBuf 0).map FoundString.byte_length = [28] ∧
    (extractStrings stubDecode cfgA helloBuf 0).map FoundString.byte_length ≠ [29] := by
  constructor
  · decide
  · decide

/-- C1 (amended): for every GBK decoder parameter, scanning Scenario A's
buffer with `min_len = 4`, encodings {ASCII, UTF-8} and no filter yields
exactly one match, at offset 0, content `"Hello World! This is a test."`,
encoding ASCII and `byte_length = 28`. -/
theorem c1_scenarioA_amended :
    ∀ decode : List Nat → String,
      extractStrings decode cfgA helloBuf 0 =
        [⟨0, "Hello World! This is a test.", .Ascii, 28, none, none⟩] := by
  intro decode
  rfl

/-- C2, counterexample: a UTF-16LE code unit with high byte 0 and
non-printable low byte (0x0001) is accepted and the run continues, so the
claimed terminate-after-one behaviour is false. -/
theorem c2_stop_counterexample : ¬ utf16RunStopClaim := by
  intro h
  have h2 := h u16Buf 9 2 (by decide) (by decide) (by decide)
  exact absurd h2 (by decide)

/-- C2 (amended): in both UTF-16 scanners, any code unit whose high byte is 0
(printable low byte or not), other than the double-NUL terminator, is
accepted and the run continues; a code unit with nonzero high byte is
accepted exactly once and the run terminates immediately after it. -/
theorem c2_code_unit_amended :
    ∀ (data : List Nat) (fuel i : Nat),
      i + 1 < data.length →
      ((¬(byteAt data i = 0 ∧ byteAt data (i + 1) = 0) →
          byteAt data (i + 1) = 0 →
          utf16CollectLe data (fuel + 1) i =
            (byteAt data i :: (utf16CollectLe data fuel (i + 2)).1,
             (utf16CollectLe data fuel (i + 2)).2)) ∧
       (byteAt data (i + 1) ≠ 0 →
          utf16CollectLe data (fuel + 1) i =
            ([byteAt data i + byteAt data (i + 1) * 256], i + 2))) ∧
      ((¬(byteAt data i = 0 ∧ byteAt data (i + 1) = 0) →
          byteAt data i = 0 →
          utf16CollectBe data (fuel + 1) i =
            (byteAt data (i + 1) :: (utf16CollectBe data fuel (i + 2)).1,
             (utf16CollectBe data fuel (i + 2)).2)) ∧
       (byteAt data i ≠ 0 →
          utf16CollectBe data (fuel + 1) i =
            ([byteAt data i * 256 + byteAt data (i + 1)], i + 2))) := by
  intro data fuel i hlen
  refine ⟨⟨?_, ?_⟩, ⟨?_, ?_⟩⟩
  · intro hne hz
    simp only [utf16CollectLe, if_pos hlen, hz]
    rw [if_neg (by simp [hz] at hne ⊢; exact hne)]
    by_cases hp : isPrintableAscii (byteAt data i)
    · simp [hp]
    · simp [hp]
  · intro hz
    simp only [utf16CollectLe, if_pos hlen]
    rw [if_neg (by intro hc; exact hz hc.2), if_neg (by intro hc; exact hz hc.1)]
    simp [hz]
  · intro hne hz
    simp only [utf16CollectBe, if_pos hlen, hz]
    rw [if_neg (by simp [hz] at hne ⊢; exact hne)]
    by_cases hp : isPrintableAscii (byteAt data (i + 1))
    · simp [hp]
    · simp [hp]
  · intro hz
    simp only [utf16CollectBe, if_pos hlen]
    rw [if_neg (by intro hc; exact hz hc.1), if_neg (by intro hc; exact hz hc.1)]
    simp [hz]

/-- Witness for `c2_code_unit_amended` at the concrete buffer `u16Buf`,
position 2 (code unit 0x0001): the run continues. -/
theorem c2_code_unit_amended_witness :
    2 + 1 < u16Buf.length ∧
    utf16CollectLe u16Buf 10 2 =
      (byteAt u16Buf 2 :: (utf16CollectLe u16Buf 9 4).1,
       (utf16CollectLe u16Buf 9 4).2) :=
  ⟨by decide, ((c2_code_unit_amended u16Buf 9 2 (by decide)).1.1 (by decide) (by decide))⟩

/-- C3, counterexample: the third consecutive invalid byte is not skipped;
the GBK run terminates at it, so the claimed skip-up-to-3 behaviour is
false. -/
theorem c3_skip_counterexample : ¬ gbkSkipClaim := by
  intro h
  have h2 := h [0x7F, 65, 65, 65] 4 0 2 []
    (by decide) (by decide) (by decide) (by decide) (by decide) (by decide)
  exact absurd h2 (by decide)

/-- C3 (amended): an invalid byte in a GBK run is skipped and the run
continues only while at most 2 consecutive invalid bytes accumulate; the
third consecutive invalid byte terminates the run. -/
theorem c3_skip_amended :
    ∀ (data : List Nat) (fuel i ci : Nat) (acc : List Nat),
      i < data.length → acc.length < 1024 →
      ¬(byteAt data i = 0 ∨ (byteAt data i < 0x20 ∧ byteAt data i ≠ 0x09)) →
      ¬(0x20 ≤ byteAt data i ∧ byteAt data i ≤ 0x7E) →
      ¬(0x81 ≤ byteAt data i ∧ byteAt data i ≤ 0xFE ∧ i + 1 < data.length ∧
          isGbkTrail (byteAt data (i + 1))) →
      (ci + 1 < 3 →
        gbkCollect data (fuel + 1) i acc ci = gbkCollect data fuel (i + 1) acc (ci + 1)) ∧
      (3 ≤ ci + 1 → gbkCollect data (fuel + 1) i acc ci = (acc, i)) := by
  intro data fuel i ci acc hi hacc hctrl hascii hpair
  constructor
  · intro hlt
    simp only [gbkCollect, if_pos (And.intro hi hacc), if_neg hctrl, if_neg hascii,
      if_neg hpair]
    rw [if_neg (by omega)]
  · intro hge
    simp only [gbkCollect, if_pos (And.intro hi hacc), if_neg hctrl, if_neg hascii,
      if_neg hpair, if_pos hge]

/-- Witness for `c3_skip_amended` at the concrete buffer `[0x7F, 65, 65, 65]`
with two prior consecutive invalid bytes: the run terminates. -/
theorem c3_skip_amended_witness :
    (0 : Nat) < ([0x7F, 65, 65, 65] : List Nat).length ∧
    gbkCollect [0x7F, 65, 65, 65] 5 0 [] 2 = ([], 0) :=
  ⟨by decide,
   (c3_skip_amended [0x7F, 65, 65, 65] 4 0 2 [] (by decide) (by decide)
     (by decide) (by decide) (by decide)).2 (by decide)⟩

/-- C7, counterexample: on a buffer beginning with a tab followed by
`min_len` printable bytes, the single match starts at offset 1, after the
tab — no run starts at the tab byte itself. -/
theorem c7_tab_counterexample :
    (extractAsciiUtf8 ⟨4, [], none, none, none⟩ tabBuf 0).map FoundString.offset = [1] ∧
    0 ∉ (extractAsciiUtf8 ⟨4, [], none, none, none⟩ tabBuf 0).map FoundString.offset := by
  constructor
  · decide
  · decide

/-- C8, counterexample: constructing an extractor in regex mode keeps the
plain pattern in `search_pattern` while also storing the compiled pattern in
`regex_pattern`, so both filter fields are populated at once. -/
theorem c8_exclusive_counterexample : ¬ filterFieldsExclusiveClaim := by
  intro h
  exact h compileStub 4 [] (some "t") true none
    ⟨4, [], some "t", some fun _ => true, none⟩ rfl ⟨rfl, rfl⟩

/-- C8 (amended): in regex mode with a compilable pattern, construction
succeeds with BOTH filter fields populated (`search_pattern` retains the
pattern string, `regex_pattern` holds the compiled matcher) and candidate
matching consults exactly the regex; with regex mode off, `regex_pattern`
stays empty. -/
theorem c8_filter_fields_amended :
    (∀ (compile : String → Except Unit (String → Bool)) (ml : Nat)
       (encs : List EncodingType) (p : String) (r : String → Bool) (ctx : Option Nat),
       compile p = .ok r →
       stringExtractorNew compile ml encs (some p) true ctx =
         .ok ⟨ml, encs.map Encoding.ofType, some p, some r, ctx⟩ ∧
       ∀ content, matchesSearchCriteria
         ⟨ml, encs.map Encoding.ofType, some p, some r, ctx⟩ content = r content) ∧
    (∀ (compile : String → Except Unit (String → Bool)) (ml : Nat)
       (encs : List EncodingType) (search : Option String) (ctx : Option Nat),
       stringExtractorNew compile ml encs search false ctx =
         .ok ⟨ml, encs.map Encoding.ofType, search, none, ctx⟩) := by
  constructor
  · intro compile ml encs p r ctx hc
    constructor
    · simp [stringExtractorNew, hc, Except.map]
    · intro content
      rfl
  · intro compile ml encs search ctx
    simp [stringExtractorNew, Except.map]

/-- Witness for `c8_filter_fields_amended` with the stand-in compiler: both
fields populated, regex consulted. -/
theorem c8_filter_fields_amended_witness :
    compileStub "t" = .ok (fun _ => true) ∧
    stringExtractorNew compileStub 4 [] (some "t") true none =
      .ok ⟨4, [], some "t", some fun _ => true, none⟩ ∧
    matchesSearchCriteria ⟨4, [], some "t", some fun _ => true, none⟩ "abc" = true :=
  ⟨rfl, (c8_filter_fields_amended.1 compileStub 4 [] "t" (fun _ => true) none rfl).1,
   (c8_filter_fields_amended.1 compileStub 4 [] "t" (fun _ => true) none rfl).2 "abc"⟩

/-- C9: construction fails exactly when regex mode is requested with a
pattern whose compilation fails; no configuration is produced in that case
(and `extractStrings` is total by its type — it returns a plain list). -/
theorem c9_construction_error :
    ∀ (compile : String → Except Unit (String → Bool)) (ml : Nat)
      (encs : List EncodingType) (search : Option String) (ur : Bool)
      (ctx : Option Nat),
      stringExtractorNew compile ml encs search ur ctx = .error () ↔
        (ur = true ∧ ∃ p, search = some p ∧ compile p = .error ()) := by
  intro compile ml encs search ur ctx
  cases ur with
  | false =>
    simp [stringExtractorNew, Except.map]
  | true =>
    cases search with
    | none => simp [stringExtractorNew, Except.map]
    | some p =>
      cases hc : compile p with
      | ok r => simp [stringExtractorNew, Except.map, hc]
      | error e => simp [stringExtractorNew, Except.map, hc]

/-- C4: with `M = 16 MiB` and `V = 4096`, an input shorter than `M` is planned
as one chunk covering the whole input; otherwise `N = min(T, L / M)` chunks
are planned, chunk `i` starting at `i * (L / N)`, every chunk but the last
ending at `min((i + 1) * (L / N) + V, L)`, the last ending at `L`, and every
chunk's base offset equal to its unwidened start. -/
theorem c4_chunk_plan (L T : Nat) (hT : 1 ≤ T) :
    (L < minChunkSize → planChunks L T = [(0, L, 0)]) ∧
    (minChunkSize ≤ L →
      (planChunks L T).length = min T (L / minChunkSize) ∧
      ∀ i, i < min T (L / minChunkSize) →
        (planChunks L T).getD i (0, 0, 0) =
          (i * (L / min T (L / minChunkSize)),
           if i = min T (L / minChunkSize) - 1 then L
           else min ((i + 1) * (L / min T (L / minChunkSize)) + overlapSize) L,
           i * (L / min T (L / minChunkSize)))) := by
  constructor
  · intro hL
    simp [planChunks, numThreadsFor, if_pos hL, chunkSizeFor, List.range_succ]
  · intro hM
    have hN : numThreadsFor L T = min T (L / minChunkSize) := by
      simp [numThreadsFor, Nat.not_lt.2 hM]
    have hdiv : 1 ≤ L / minChunkSize :=
      (Nat.one_le_div_iff (by decide)).2 hM
    have hcs : chunkSizeFor L (min T (L / minChunkSize)) = L / min T (L / minChunkSize) := by
      by_cases h1 : min T (L / minChunkSize) = 1
      · simp [chunkSizeFor, h1]
      · simp [chunkSizeFor, h1]
    refine ⟨by simp [planChunks, hN, hcs], ?_⟩
    intro i hi
    simp only [planChunks, hN, hcs, List.getD_eq_getElem?_getD, List.getElem?_map,
      List.getElem?_range hi]
    rfl

/-- Witness for `c4_chunk_plan` at `L = 32 MiB`, `T = 2`: two chunks, the
first widened by the 4096-byte overlap, the second ending at `L`, base
offsets equal to the unwidened starts. -/
theorem c4_chunk_plan_witness :
    (planChunks 33554432 2).getD 0 (0, 0, 0) = (0, 16781312, 0) ∧
    (planChunks 33554432 2).getD 1 (0, 0, 0) = (16777216, 33554432, 16777216) :=
  ⟨((c4_chunk_plan 33554432 2 (by decide)).2 (by decide)).2 0 (by decide),
   ((c4_chunk_plan 33554432 2 (by decide)).2 (by decide)).2 1 (by decide)⟩

/-- The content/encoding determination only ever tags ASCII or UTF-8. -/
theorem asciiContentEnc_snd (span : List Nat) (na : Bool) :
    (asciiContentEnc span na).2 = .Ascii ∨ (asciiContentEnc span na).2 = .Utf8 := by
  unfold asciiContentEnc
  split
  · split
    · exact Or.inr rfl
    · exact Or.inl rfl
  · exact Or.inl rfl

/-- Every match emitted by the ASCII/UTF-8 emission step passed the byte
length gate and is tagged ASCII or UTF-8. -/
theorem asciiEmit_spec {cfg : ExtractionConfig} {data : List Nat}
    {base start stop : Nat} {na : Bool} {m : FoundString}
    (h : asciiEmit cfg data base start stop na = some m) :
    cfg.min_len ≤ m.byte_length ∧ (m.encoding = .Ascii ∨ m.encoding = .Utf8) := by
  simp only [asciiEmit] at h
  split at h
  · split at h
    · injection h with h
      subst h
      exact ⟨by assumption, asciiContentEnc_snd _ _⟩
    · exact absurd h (by simp)
  · exact absurd h (by simp)

/-- Every match produced by the ASCII/UTF-8 scan loop passed the byte length
gate and is tagged ASCII or UTF-8. -/
theorem asciiScan_spec (cfg : ExtractionConfig) (data : List Nat) (base : Nat) :
    ∀ (fuel i : Nat) (m : FoundString), m ∈ asciiScan cfg data base fuel i →
      cfg.min_len ≤ m.byte_length ∧ (m.encoding = .Ascii ∨ m.encoding = .Utf8) := by
  intro fuel
  induction fuel with
  | zero => intro i m hm; exact absurd hm (by simp [asciiScan])
  | succ fuel ih =>
    intro i m hm
    simp only [asciiScan] at hm
    split at hm
    · split at hm
      · rcases hemit : asciiEmit cfg data base i
            (asciiRun data (data.length + 1) i false).1
            (asciiRun data (data.length + 1) i false).2 with _ | m2
        · rw [hemit] at hm
          exact ih _ m hm
        · rw [hemit] at hm
          rcases List.mem_cons.1 hm with h | h
          · subst h; exact asciiEmit_spec hemit
          · exact ih _ m h
      · exact ih _ m hm
    · exact absurd hm (by simp)

/-- The UTF-16 collection loops advance the index by exactly two bytes per
collected code unit. -/
theorem utf16Collect_len (data : List Nat) :
    ∀ (fuel i : Nat),
      (utf16CollectLe data fuel i).2 = i + 2 * (utf16CollectLe data fuel i).1.length ∧
      (utf16CollectBe data fuel i).2 = i + 2 * (utf16CollectBe data fuel i).1.length := by
  intro fuel
  induction fuel with
  | zero => intro i; exact ⟨rfl, rfl⟩
  | succ fuel ih =>
    intro i
    constructor
    · simp only [utf16CollectLe] 
      split
      · split
        · simp
        · split
          · have := (ih (i + 2)).1
            simp only [List.length_cons]
            omega
          · split
            · simp [Nat.mul_comm]
            · have := (ih (i + 2)).1
              simp only [List.length_cons]
              omega
      · simp
    · simp only [utf16CollectBe] 
      split
      · split
        · simp
        · split
          · have := (ih (i + 2)).2
            simp only [List.length_cons]
            omega
          · split
            · simp [Nat.mul_comm]
            · have := (ih (i + 2)).2
              simp only [List.length_cons]
              omega
      · simp

/-- Every match emitted by the UTF-16 emission step passed the code-unit
length gate, carries the scanner's encoding tag and spans `stop - start`
bytes. -/
theorem utf16Emit_spec {cfg : ExtractionConfig} {data : List Nat}
    {base : Nat} {enc : Encoding} {start stop : Nat} {units : List Nat}
    {m : FoundString} (h : utf16Emit cfg data base enc start stop units = some m) :
    cfg.min_len ≤ units.length ∧ m.byte_length = stop - start ∧ m.encoding = enc := by
  simp only [utf16Emit] at h
  split at h
  · split at h
    · split at h
      · injection h with h
        subst h
        exact ⟨by assumption, rfl, rfl⟩
      · exact absurd h (by simp)
    · exact absurd h (by simp)
  · exact absurd h (by simp)

/-- Every match produced by the UTF-16LE scan loop covers `2 × u` source
bytes for some code-unit count `u ≥ min_len`, and is tagged UTF-16LE. -/
theorem utf16LeScan_spec (cfg : ExtractionConfig) (data : List Nat) (base : Nat) :
    ∀ (fuel i : Nat) (m : FoundString), m ∈ utf16LeScan cfg data base fuel i →
      (∃ u, m.byte_length = 2 * u ∧ cfg.min_len ≤ u) ∧ m.encoding = .Utf16Le := by
  intro fuel
  induction fuel with
  | zero => intro i m hm; exact absurd hm (by simp [utf16LeScan])
  | succ fuel ih =>
    intro i m hm
    simp only [utf16LeScan] at hm
    split at hm
    · split at hm
      · rcases hemit : utf16Emit cfg data base .Utf16Le i
            (utf16CollectLe data (data.length + 1) i).2
            (utf16CollectLe data (data.length + 1) i).1 with _ | m2
        · rw [hemit] at hm
          exact ih _ m hm
        · rw [hemit] at hm
          rcases List.mem_cons.1 hm with h | h
          · subst h
            obtain ⟨hu, hb, he⟩ := utf16Emit_spec hemit
            refine ⟨⟨(utf16CollectLe data (data.length + 1) i).1.length, ?_, hu⟩, he⟩
            rw [hb, (utf16Collect_len data (data.length + 1) i).1]
            omega
          · exact ih _ m h
      · exact ih _ m hm
    · exact absurd hm (by simp)

/-- Every match produced by the UTF-16BE scan loop covers `2 × u` source
bytes for some code-unit count `u ≥ min_len`, and is tagged UTF-16BE. -/
theorem utf16BeScan_spec (cfg : ExtractionConfig) (data : List Nat) (base : Nat) :
    ∀ (fuel i : Nat) (m : FoundString), m ∈ utf16BeScan cfg data base fuel i →
      (∃ u, m.byte_length = 2 * u ∧ cfg.min_len ≤ u) ∧ m.encoding = .Utf16Be := by
  intro fuel
  induction fuel with
  | zero => intro i m hm; exact absurd hm (by simp [utf16BeScan])
  | succ fuel ih =>
    intro i m hm
    simp only [utf16BeScan] at hm
    split at hm
    · split at hm
      · rcases hemit : utf16Emit cfg data base .Utf16Be i
            (utf16CollectBe data (data.length + 1) i).2
            (utf16CollectBe data (data.length + 1) i).1 with _ | m2
        · rw [hemit] at hm
          exact ih _ m hm
        · rw [hemit] at hm
          rcases List.mem_cons.1 hm with h | h
          · subst h
            obtain ⟨hu, hb, he⟩ := utf16Emit_spec hemit
            refine ⟨⟨(utf16CollectBe data (data.length + 1) i).1.length, ?_, hu⟩, he⟩
            rw [hb, (utf16Collect_len data (data.length + 1) i).2]
            omega
          · exact ih _ m h
      · exact ih _ m hm
    · exact absurd hm (by simp)

/-- Every match emitted by the GBK emission step passed the accumulated-byte
gate and the decoded-length gate, and its content is the decoder's output on
the accumulated bytes. -/
theorem gbkEmit_spec {decode : List Nat → String} {cfg : ExtractionConfig}
    {data : List Nat} {base start stop : Nat} {acc : List Nat} {m : FoundString}
    (h : gbkEmit decode cfg data base start stop acc = some m) :
    cfg.min_len ≤ acc.length ∧ m.content = decode acc ∧
      cfg.min_len / 2 ≤ m.content.length ∧ m.encoding = .Gbk := by
  simp only [gbkEmit] at h
  split at h
  · split at h
    · split at h
      · injection h with h
        subst h
        refine ⟨by assumption, rfl, ?_, rfl⟩
        rename_i hgate _
        exact hgate.2
      · exact absurd h (by simp)
    · exact absurd h (by simp)
  · exact absurd h (by simp)

/-- Every match produced by the GBK scan loop is tagged GBK, decodes at least
`min_len / 2` characters, and arises from at least `min_len` accumulated
source bytes. -/
theorem gbkScan_spec (decode : List Nat → String) (cfg : ExtractionConfig)
    (data : List Nat) (base : Nat) :
    ∀ (fuel i : Nat) (m : FoundString), m ∈ gbkScan decode cfg data base fuel i →
      m.encoding = .Gbk ∧ cfg.min_len / 2 ≤ m.content.length ∧
        ∃ bs, cfg.min_len ≤ bs.length ∧ m.content = decode bs := by
  intro fuel
  induction fuel with
  | zero => intro i m hm; exact absurd hm (by simp [gbkScan])
  | succ fuel ih =>
    intro i m hm
    simp only [gbkScan] at hm
    split at hm
    · split at hm
      · rcases hemit : gbkEmit decode cfg data base i
            (gbkCollect data (data.length + 1) i [] 0).2
            (gbkCollect data (data.length + 1) i [] 0).1 with _ | m2
        · rw [hemit] at hm
          exact ih _ m hm
        · rw [hemit] at hm
          rcases List.mem_cons.1 hm with h | h
          · subst h
            obtain ⟨hacc, hc, hl, he⟩ := gbkEmit_spec hemit
            exact ⟨he, hl, ⟨_, hacc, hc⟩⟩
          · exact ih _ m h
      · exact ih _ m hm
    · exact absurd hm (by simp)

/-- C6: every match emitted by `extract_strings` has a pre-decode unit count
of at least `min_len` — source bytes for the ASCII/UTF-8 scanner, 16-bit code
units for the UTF-16 scanners, accumulated source bytes for the GBK scanner —
and every GBK match additionally decodes to at least `min_len / 2`
characters. -/
theorem c6_min_len_enforced (decode : List Nat → String) (cfg : ExtractionConfig)
    (data : List Nat) (base : Nat) (m : FoundString)
    (hm : m ∈ extractStrings decode cfg data base) :
    ((m.encoding = .Ascii ∨ m.encoding = .Utf8) → cfg.min_len ≤ m.byte_length) ∧
    ((m.encoding = .Utf16Le ∨ m.encoding = .Utf16Be) →
      ∃ u, m.byte_length = 2 * u ∧ cfg.min_len ≤ u) ∧
    (m.encoding = .Gbk → cfg.min_len / 2 ≤ m.content.length ∧
      ∃ bs, cfg.min_len ≤ bs.length ∧ m.content = decode bs) := by
  unfold extractStrings at hm
  rcases List.mem_append.1 hm with hm3 | hgbk
  rcases List.mem_append.1 hm3 with hm2 | hbe
  rcases List.mem_append.1 hm2 with ha | hle
  · have ha2 : m ∈ extractAsciiUtf8 cfg data base := by
      rcases Decidable.em
          ((cfg.encodings.contains Encoding.Ascii || cfg.encodings.contains Encoding.Utf8) = true)
        with hc | hc
      · rwa [if_pos hc] at ha
      · rw [if_neg hc] at ha; exact absurd ha (by simp)
    obtain ⟨hlen, henc⟩ := asciiScan_spec cfg data base _ _ m ha2
    refine ⟨fun _ => hlen, fun he => ?_, fun he => ?_⟩
    · rcases henc with h | h <;> rcases he with he | he <;> rw [h] at he <;> cases he
    · rcases henc with h | h <;> rw [h] at he <;> cases he
  · have hle2 : m ∈ extractUtf16Le cfg data base := by
      rcases Decidable.em (cfg.encodings.contains Encoding.Utf16Le = true) with hc | hc
      · rwa [if_pos hc] at hle
      · rw [if_neg hc] at hle; exact absurd hle (by simp)
    obtain ⟨hu, henc⟩ := utf16LeScan_spec cfg data base _ _ m hle2
    refine ⟨fun he => ?_, fun _ => hu, fun he => ?_⟩
    · rcases he with he | he <;> rw [henc] at he <;> cases he
    · rw [henc] at he; cases he
  · have hbe2 : m ∈ extractUtf16Be cfg data base := by
      rcases Decidable.em (cfg.encodings.contains Encoding.Utf16Be = true) with hc | hc
      · rwa [if_pos hc] at hbe
      · rw [if_neg hc] at hbe; exact absurd hbe (by simp)
    obtain ⟨hu, henc⟩ := utf16BeScan_spec cfg data base _ _ m hbe2
    refine ⟨fun he => ?_, fun _ => hu, fun he => ?_⟩
    · rcases he with he | he <;> rw [henc] at he <;> cases he
    · rw [henc] at he; cases he
  · have hg2 : m ∈ extractGbk decode cfg data base := by
      rcases Decidable.em (cfg.encodings.contains Encoding.Gbk = true) with hc | hc
      · rwa [if_pos hc] at hgbk
      · rw [if_neg hc] at hgbk; exact absurd hgbk (by simp)
    obtain ⟨henc, hl, hbs⟩ := gbkScan_spec decode cfg data base _ _ m hg2
    refine ⟨fun he => ?_, fun he => ?_, fun _ => ⟨hl, hbs⟩⟩
    · rcases he with he | he <;> rw [henc] at he <;> cases he
    · rcases he with he | he <;> rw [henc] at he <;> cases he

/-- Witness for `c6_min_len_enforced` at Scenario A's buffer: the single
ASCII match satisfies the byte-length bound. -/
theorem c6_min_len_enforced_witness :
    (⟨0, "Hello World! This is a test.", .Ascii, 28, none, none⟩ : FoundString) ∈
        extractStrings stubDecode cfgA helloBuf 0 ∧
    ((4 : Nat) ≤ 28 ∧ True) :=
  ⟨by decide,
   (c6_min_len_enforced stubDecode cfgA helloBuf 0
      ⟨0, "Hello World! This is a test.", .Ascii, 28, none, none⟩ (by decide)).1
     (Or.inl rfl),
   trivial⟩

/-- Unfolding equation for the dedup pass on a nonempty list. -/
theorem dedupFrom_cons (prev b : FoundString) (t : List FoundString) :
    dedupFrom prev (b :: t) =
      if b.offset = prev.offset then dedupFrom prev t else b :: dedupFrom b t :=
  rfl

/-- Elements surviving the dedup pass were present in the input. -/
theorem dedupFrom_subset :
    ∀ (l : List FoundString) (prev m : FoundString), m ∈ dedupFrom prev l → m ∈ l := by
  intro l
  induction l with
  | nil => intro prev m hm; exact absurd hm (by simp [dedupFrom])
  | cons b t ih =>
    intro prev m hm
    rw [dedupFrom_cons] at hm
    split at hm
    · exact List.mem_cons_of_mem b (ih prev m hm)
    · rcases List.mem_cons.1 hm with h | h
      · exact h ▸ List.mem_cons_self b t
      · exact List.mem_cons_of_mem b (ih b m h)

/-- Every input offset keeps a representative: either the previously kept
element or an element surviving the pass. -/
theorem dedupFrom_covers :
    ∀ (l : List FoundString) (prev m : FoundString), m ∈ l →
      ∃ k, (k = prev ∨ k ∈ dedupFrom prev l) ∧ k.offset = m.offset := by
  intro l
  induction l with
  | nil => intro prev m hm; exact absurd hm (by simp)
  | cons b t ih =>
    intro prev m hm
    by_cases hb : b.offset = prev.offset
    · rw [dedupFrom_cons, if_pos hb]
      rcases List.mem_cons.1 hm with h | h
      · exact ⟨prev, Or.inl rfl, by rw [h, hb]⟩
      · exact ih prev m h
    · rw [dedupFrom_cons, if_neg hb]
      rcases List.mem_cons.1 hm with h | h
      · exact ⟨b, Or.inr (List.mem_cons_self _ _), by rw [h]⟩
      · obtain ⟨k, hk, hko⟩ := ih b m h
        rcases hk with hk | hk
        · exact ⟨k, Or.inr (hk ▸ List.mem_cons_self _ _), hko⟩
        · exact ⟨k, Or.inr (List.mem_cons_of_mem _ hk), hko⟩

/-- On an offset-sorted input whose offsets all dominate the previously kept
element, the dedup pass yields strictly increasing offsets, all above the
previously kept element's offset. -/
theorem dedupFrom_strict :
    ∀ (l : List FoundString) (prev : FoundString),
      l.Pairwise (fun a b => a.offset ≤ b.offset) →
      (∀ x ∈ l, prev.offset ≤ x.offset) →
      (∀ x ∈ dedupFrom prev l, prev.offset < x.offset) ∧
        (dedupFrom prev l).Pairwise (fun a b => a.offset < b.offset) := by
  intro l
  induction l with
  | nil => intro prev _ _; exact ⟨by simp [dedupFrom], by simp [dedupFrom]⟩
  | cons b t ih =>
    intro prev hpw hall
    obtain ⟨hbt, htpw⟩ := List.pairwise_cons.1 hpw
    by_cases hb : b.offset = prev.offset
    · rw [dedupFrom_cons, if_pos hb]
      exact ih prev htpw fun x hx => hb ▸ hbt x hx
    · rw [dedupFrom_cons, if_neg hb]
      have hpb : prev.offset < b.offset :=
        Nat.lt_of_le_of_ne (hall b (List.mem_cons_self _ _)) fun h => hb h.symm
      obtain ⟨habove, hded⟩ := ih b htpw hbt
      constructor
      · intro x hx
        rcases List.mem_cons.1 hx with h | h
        · exact h ▸ hpb
        · exact Nat.lt_trans hpb (habove x h)
      · exact List.pairwise_cons.2 ⟨habove, hded⟩

/-- `dedup_by_key` on a sorted list: the output is a subset with strictly
increasing offsets, and every input offset survives. -/
theorem dedupByOffset_spec (s : List FoundString)
    (hs : s.Pairwise (fun a b => a.offset ≤ b.offset)) :
    (∀ m ∈ dedupByOffset s, m ∈ s) ∧
      (dedupByOffset s).Pairwise (fun a b => a.offset < b.offset) ∧
      (∀ m ∈ s, ∃ k ∈ dedupByOffset s, k.offset = m.offset) := by
  cases s with
  | nil => exact ⟨by simp [dedupByOffset], by simp [dedupByOffset], by simp⟩
  | cons a t =>
    obtain ⟨hat, htpw⟩ := List.pairwise_cons.1 hs
    obtain ⟨habove, hded⟩ := dedupFrom_strict t a htpw hat
    refine ⟨?_, ?_, ?_⟩
    · intro m hm
      rcases List.mem_cons.1 hm with h | h
      · exact h ▸ List.mem_cons_self _ _
      · exact List.mem_cons_of_mem _ (dedupFrom_subset t a m h)
    · exact List.pairwise_cons.2 ⟨habove, hded⟩
    · intro m hm
      rcases List.mem_cons.1 hm with h | h
      · exact ⟨a, List.mem_cons_self _ _, by rw [h]⟩
      · obtain ⟨k, hk, hko⟩ := dedupFrom_covers t a m h
        rcases hk with hk | hk
        · exact ⟨k, hk ▸ List.mem_cons_self _ _, hko⟩
        · exact ⟨k, List.mem_cons_of_mem _ hk, hko⟩

/-- C5: the dedup/merge step sorts all matches ascending by offset and
removes exactly the later entries of each equal-offset group: the output is a
subset of the input with strictly increasing offsets, and every input match —
in particular every member of a pair with distinct offsets, identical content
or not — keeps a surviving entry at its own offset. -/
theorem c5_merge_dedup (l : List FoundString) :
    (∀ m ∈ mergeDedup l, m ∈ l) ∧
      (mergeDedup l).Pairwise (fun a b => a.offset < b.offset) ∧
      (∀ m ∈ l, ∃ k ∈ mergeDedup l, k.offset = m.offset) := by
  have hperm : List.Perm (sortByOffset l) l := List.mergeSort_perm l _
  have hsorted : (sortByOffset l).Pairwise (fun a b => a.offset ≤ b.offset) := by
    have hs := @List.sorted_mergeSort FoundString
      (fun a b : FoundString => decide (a.offset ≤ b.offset))
      (by intro a b c hab hbc; simp only [decide_eq_true_eq] at *; omega)
      (by intro a b; simp only [Bool.or_eq_true, decide_eq_true_eq]; omega)
      l
    exact hs.imp fun h => of_decide_eq_true h
  obtain ⟨hsub, hpw, hcov⟩ := dedupByOffset_spec _ hsorted
  refine ⟨fun m hm => hperm.mem_iff.1 (hsub m hm), hpw, fun m hm => ?_⟩
  exact hcov m (hperm.mem_iff.2 hm)

/-- The ASCII/UTF-8 run loop consumes the whole remainder of the buffer when
every remaining byte is printable, reporting no non-ASCII content. -/
theorem asciiRun_printable (data : List Nat) :
    ∀ (fuel i : Nat), data.length ≤ i + fuel → i ≤ data.length →
      (∀ j, i ≤ j → j < data.length → isPrintableAscii (byteAt data j) = true) →
      asciiRun data fuel i false = (data.length, false) := by
  intro fuel
  induction fuel with
  | zero =>
    intro i h1 h2 _
    have h3 : i = data.length := by omega
    simp only [asciiRun, h3]
  | succ fuel ih =>
    intro i h1 h2 hp
    by_cases hi : i < data.length
    · have hpi := hp i (Nat.le_refl i) hi
      have hb : 0x20 ≤ byteAt data i ∧ byteAt data i ≤ 0x7E := by
        simpa [isPrintableAscii] using hpi
      simp only [asciiRun, if_pos hi]
      rw [if_neg (by omega), if_pos (Or.inl hpi)]
      exact ih (i + 1) (by omega) (by omega) fun j hj hjl => hp j (by omega) hjl
    · have h3 : i = data.length := by omega
      subst h3
      simp [asciiRun, hi]

/-- The scan loop stops at or past the end of the buffer. -/
theorem asciiScan_stop (cfg : ExtractionConfig) (data : List Nat) (base : Nat) :
    ∀ (fuel i : Nat), data.length ≤ i → asciiScan cfg data base fuel i = [] := by
  intro fuel i h
  cases fuel with
  | zero => rfl
  | succ fuel => simp [asciiScan, Nat.not_lt.2 h]

/-- The scan loop skips a non-printable byte without starting a run. -/
theorem asciiScan_skip (cfg : ExtractionConfig) (data : List Nat) (base fuel i : Nat)
    (hi : i < data.length) (hp : ¬ isPrintableAscii (byteAt data i) = true) :
    asciiScan cfg data base (fuel + 1) i = asciiScan cfg data base fuel (i + 1) := by
  simp only [asciiScan, if_pos hi]
  rw [if_neg hp]

/-- At a printable byte the scan loop starts a run and processes it. -/
theorem asciiScan_run (cfg : ExtractionConfig) (data : List Nat) (base fuel i : Nat)
    (hi : i < data.length) (hp : isPrintableAscii (byteAt data i) = true) :
    asciiScan cfg data base (fuel + 1) i =
      (match asciiEmit cfg data base i (asciiRun data (data.length + 1) i false).1
          (asciiRun data (data.length + 1) i false).2 with
       | some m => m :: asciiScan cfg data base fuel (asciiRun data (data.length + 1) i false).1
       | none => asciiScan cfg data base fuel (asciiRun data (data.length + 1) i false).1) := by
  simp only [asciiScan, if_pos hi]
  rw [if_pos hp]

/-- C7 (amended): a run in the ASCII/UTF-8 scanner starts only at a printable
ASCII byte (0x20-0x7E) — a tab can only continue a run, never start one: the
scan loop skips over any non-printable byte (tab included), and a buffer
beginning with a tab followed by at least `min_len ≥ 1` printable bytes
yields exactly one match starting just after the tab. -/
theorem c7_run_start_amended :
    (∀ (cfg : ExtractionConfig) (data : List Nat) (base fuel i : Nat),
      i < data.length → ¬ isPrintableAscii (byteAt data i) = true →
      asciiScan cfg data base (fuel + 1) i = asciiScan cfg data base fuel (i + 1)) ∧
    (∀ (ml : Nat) (encs : List Encoding) (bs : List Nat),
      1 ≤ ml → ml ≤ bs.length →
      (∀ b ∈ bs, isPrintableAscii b = true) →
      extractAsciiUtf8 ⟨ml, encs, none, none, none⟩ (9 :: bs) 0 =
        [⟨1, String.mk (bs.map Char.ofNat), .Ascii, bs.length, none, none⟩]) := by
  refine ⟨asciiScan_skip, ?_⟩
  intro ml encs bs hml hlen hp
  have hb0 : ∀ j, 1 ≤ j → j < bs.length + 1 →
      isPrintableAscii (byteAt (9 :: bs) j) = true := by
    intro j h1 h2
    obtain ⟨j2, rfl⟩ : ∃ j2, j = j2 + 1 := ⟨j - 1, by omega⟩
    have hcons : byteAt (9 :: bs) (j2 + 1) = byteAt bs j2 := by
      simp [byteAt]
    rw [hcons]
    have hj2 : j2 < bs.length := by omega
    have hmem : byteAt bs j2 ∈ bs := by
      rw [byteAt, List.getD_eq_getElem bs 0 hj2]
      exact List.getElem_mem hj2
    exact hp _ hmem
  have hdl : (9 :: bs).length = bs.length + 1 := by simp
  have hrun : asciiRun (9 :: bs) ((9 :: bs).length + 1) 1 false =
      ((9 :: bs).length, false) := by
    refine asciiRun_printable (9 :: bs) ((9 :: bs).length + 1) 1 (by omega) (by omega) ?_
    intro j hj hjl
    exact hb0 j hj (by omega)
  have hemit : asciiEmit ⟨ml, encs, none, none, none⟩ (9 :: bs) 0 1 ((9 :: bs).length) false =
      some ⟨1, String.mk (bs.map Char.ofNat), .Ascii, bs.length, none, none⟩ := by
    have hspan : sliceList (9 :: bs) 1 (9 :: bs).length = bs := by
      simp only [sliceList, List.drop_succ_cons, List.drop_zero, hdl,
        Nat.add_sub_cancel, List.take_length]
    simp only [asciiEmit]
    rw [if_pos (by rw [hdl]; simpa using hlen), hspan]
    have hce : asciiContentEnc bs false = (String.mk (bs.map Char.ofNat), Encoding.Ascii) := rfl
    rw [hce]
    simp [matchesSearchCriteria, extractContext, hdl]
  unfold extractAsciiUtf8
  rw [hdl]
  rw [asciiScan_skip _ _ _ (bs.length + 1) 0 (by simp) (by simp [byteAt, isPrintableAscii])]
  rw [asciiScan_run _ _ _ bs.length 1 (by simp; omega) (hb0 1 (Nat.le_refl 1) (by omega))]
  rw [hrun]
  dsimp only
  rw [hemit]
  dsimp only
  rw [asciiScan_stop _ _ _ bs.length ((9 :: bs).length) (Nat.le_refl _)]

/-- Witness for `c7_run_start_amended` on the tab-then-printable buffer:
the single match starts at offset 1. -/
theorem c7_run_start_amended_witness :
    (1 : Nat) ≤ 4 ∧
    extractAsciiUtf8 ⟨4, [], none, none, none⟩ (9 :: [97, 98, 99, 100]) 0 =
      [⟨1, String.mk ([97, 98, 99, 100].map Char.ofNat), .Ascii, 4, none, none⟩] :=
  ⟨by decide,
   c7_run_start_amended.2 4 [] [97, 98, 99, 100] (by decide) (by decide) (by decide)⟩

/-- C10: the requested encoding set does not constrain the tag of ASCII/UTF-8
matches — requesting only {ASCII} can emit a UTF-8-tagged match, requesting
only {UTF-8} can emit an ASCII-tagged match, and the combined scanner's
output is identical under either request. -/
theorem c10_tag_independent_of_request :
    (extractStrings stubDecode ⟨4, [.Ascii], none, none, none⟩ accentBuf 0).map
        FoundString.encoding = [.Utf8] ∧
    (extractStrings stubDecode ⟨4, [.Utf8], none, none, none⟩ plainBuf 0).map
        FoundString.encoding = [.Ascii] ∧
    extractStrings stubDecode ⟨4, [.Ascii], none, none, none⟩ accentBuf 0 =
      extractStrings stubDecode ⟨4, [.Utf8], none, none, none⟩ accentBuf 0 := by
  refine ⟨by decide, by decide, by decide⟩

end Memstrap
